import Mathlib

set_option maxRecDepth 8000

namespace Tnuctipun

/-! Shallow embedding of scripts/extract_rust_snippets.py.

Text is modelled as `List Char`; the script reads a document, splits it on
newlines, collects fenced rust blocks, filters placeholder snippets, splits
snippets holding several derive-struct definitions and writes numbered files
plus a count file.  File paths are modelled by their name inside the output
directory. -/

/-- Whitespace test mirroring the class used by str.strip and by the regex
whitespace class, restricted to ASCII whitespace characters. -/
def isPySpace (c : Char) : Bool :=
  c = ' ' || c = '\t' || c = '\n' || c = '\r' || c = '\x0b' || c = '\x0c'

/-- Word-character test for the regex word class, ASCII range. -/
def isWordChar (c : Char) : Bool :=
  (('a' ≤ c) && (c ≤ 'z')) || (('A' ≤ c) && (c ≤ 'Z')) ||
  (('0' ≤ c) && (c ≤ '9')) || c = '_'

/-- Python str.strip with no argument: drop whitespace from both ends. -/
def pyStrip (s : List Char) : List Char :=
  ((s.dropWhile isPySpace).reverse.dropWhile isPySpace).reverse

/-- Python content.split with a newline separator. -/
def pySplitLines (s : List Char) : List (List Char) :=
  s.splitOn '\n'

/-- Python newline join of a list of line texts. -/
def joinNl (ls : List (List Char)) : List Char :=
  List.intercalate ['\n'] ls

/-! Regular-expression fragment.  The script uses two kinds of regexes: the
four anchored placeholder patterns checked with re.match under IGNORECASE
and MULTILINE, and the derive-struct pattern scanned with re.finditer under
MULTILINE and DOTALL.  Both fit in a fragment with character classes,
sequencing, greedy or lazy class repetition and the multiline end-of-line
anchor; the matcher below implements Python backtracking preference
order. -/

/-- Abstract syntax of the regular-expression fragment. -/
inductive RE where
  | eps : RE
  | ch : (Char → Bool) → RE
  | cat : RE → RE → RE
  | star : (Char → Bool) → Bool → RE
  | eol : RE

/-- Greedy repetition of a character class with backtracking: longer
consumptions are tried first. -/
def starG (p : Char → Bool) (k : List Char → Option (List Char)) :
    List Char → Option (List Char)
  | [] => k []
  | c :: s =>
    if p c then Option.orElse (starG p k s) (fun _ => k (c :: s))
    else k (c :: s)

/-- Lazy repetition of a character class with backtracking: shorter
consumptions are tried first. -/
def starL (p : Char → Bool) (k : List Char → Option (List Char)) :
    List Char → Option (List Char)
  | [] => k []
  | c :: s =>
    Option.orElse (k (c :: s)) (fun _ => if p c then starL p k s else none)

/-- Backtracking matcher: mtch re s k matches re against a prefix of s in
Python preference order and passes the remaining suffix to the continuation
k; the first overall success is returned. -/
def mtch : RE → List Char → (List Char → Option (List Char)) → Option (List Char)
  | .eps, s, k => k s
  | .ch p, s, k =>
    match s with
    | [] => none
    | c :: s => if p c then k s else none
  | .cat a b, s, k => mtch a s (fun s2 => mtch b s2 k)
  | .star p g, s, k => if g then starG p k s else starL p k s
  | .eol, s, k =>
    match s with
    | [] => k []
    | c :: _ => if c = '\n' then k s else none

/-- Anchored match as performed by re.match: the match must begin at the
first character; the remaining suffix is returned on success. -/
def reMatch (r : RE) (s : List Char) : Option (List Char) :=
  mtch r s (fun rest => some rest)

/-- Right-nested sequencing of a list of regex pieces. -/
def rcats : List RE → RE
  | [] => .eps
  | r :: rs => .cat r (rcats rs)

/-- Case-sensitive literal character. -/
def lchr (c : Char) : RE := .ch (fun d => d = c)

/-- Case-insensitive literal letter, given in lowercase, mirroring the
IGNORECASE flag; for non-letter characters the flag is irrelevant and the
case-sensitive literal is used instead. -/
def cichr (c : Char) : RE := .ch (fun d => d.toLower = c)

/-- Greedy whitespace repetition, the starred whitespace class. -/
def wsStar : RE := .star isPySpace true

/-- Placeholder pattern for a comment line reading Your code here, one
piece per regex token. -/
def pat1 : RE :=
  rcats [wsStar, lchr '/', lchr '/', wsStar,
    cichr 'y', cichr 'o', cichr 'u', cichr 'r', .ch isPySpace, wsStar,
    cichr 'c', cichr 'o', cichr 'd', cichr 'e', .ch isPySpace, wsStar,
    cichr 'h', cichr 'e', cichr 'r', cichr 'e', wsStar, .eol]

/-- Placeholder pattern for a comment line that is an ellipsis. -/
def pat2 : RE :=
  rcats [wsStar, lchr '/', lchr '/', wsStar,
    lchr '.', lchr '.', lchr '.', wsStar, .eol]

/-- Placeholder pattern for a hash-comment line that is an ellipsis. -/
def pat3 : RE :=
  rcats [wsStar, lchr '#', wsStar, lchr '.', lchr '.', lchr '.', wsStar, .eol]

/-- Placeholder pattern for a bare line that is an ellipsis. -/
def pat4 : RE :=
  rcats [wsStar, lchr '.', lchr '.', lchr '.', wsStar, .eol]

/-- The placeholder patterns in source order. -/
def placeholderPatterns : List RE := [pat1, pat2, pat3, pat4]

/-- Embedding of is_placeholder_snippet: strip the code, report a
placeholder when one of the patterns matches at the start of the stripped
text, or when the stripped text is shorter than ten characters. -/
def is_placeholder_snippet (code : List Char) : Bool :=
  let cs := pyStrip code
  if placeholderPatterns.any (fun p => (reMatch p cs).isSome) then true
  else if cs.length < 10 then true
  else false

/-- Character class for the dot under DOTALL: any character. -/
def anyCh : Char → Bool := fun _ => true

/-- Pieces of the derive-struct pattern before the opening brace: hash,
opening bracket, the word derive, a lazy gap, the closing bracket, optional
whitespace, a newline, the word struct, whitespace, a word-character name
and optional whitespace; one piece per regex token. -/
def deriveHead : List RE :=
  [lchr '#', lchr '[',
    lchr 'd', lchr 'e', lchr 'r', lchr 'i', lchr 'v', lchr 'e',
    .star anyCh false, lchr ']', wsStar, lchr '\n',
    lchr 's', lchr 't', lchr 'r', lchr 'u', lchr 'c', lchr 't',
    .ch isPySpace, wsStar, .ch isWordChar, .star isWordChar true, wsStar]

/-- Pieces of the derive-struct pattern tail: the braced body with a lazy
gap ending at a closing brace. -/
def deriveTail : List RE := [lchr '\x7b', .star anyCh false, lchr '\x7d']

/-- Full derive-struct pattern of the splitter. -/
def derivePat : RE := rcats (deriveHead ++ deriveTail)

/-- A position right after consumed text m is a line start exactly when m
ends with a newline. -/
def endsWithNl (m : List Char) : Bool :=
  m.getLast? = some '\n'

/-- Fuel-indexed scan mirroring re.finditer for a pattern anchored at line
starts: positions are tried left to right, a successful match is recorded
and scanning resumes right after it, so matches are non-overlapping and in
text order.  Text length plus one is always enough fuel because every step
consumes at least one character. -/
def scanFind (pat : RE) : Nat → List Char → Bool → List (List Char)
  | 0, _, _ => []
  | _ + 1, [], _ => []
  | fuel + 1, c :: s, atStart =>
    if atStart then
      match mtch pat (c :: s) (fun rest => some rest) with
      | some rest =>
        let m := (c :: s).take ((c :: s).length - rest.length)
        m :: scanFind pat fuel rest (endsWithNl m)
      | none => scanFind pat fuel s (c = '\n')
    else scanFind pat fuel s (c = '\n')

/-- Matches of the derive-struct pattern in a snippet, as computed by
re.finditer under MULTILINE and DOTALL. -/
def structMatches (s : List Char) : List (List Char) :=
  scanFind derivePat (s.length + 1) s true

/-! Line scanner. -/

/-- Scanner state: emitted snippets, the inside-block flag and the current
line accumulator. -/
structure ScanState where
  snippets : List (List Char)
  inRustBlock : Bool
  currentSnippet : List (List Char)
deriving DecidableEq

/-- Opening-fence marker checked as a prefix of the stripped line. -/
def fenceOpenChars : List Char := ("```rust").data

/-- Bare closing-fence marker compared against the whole stripped line. -/
def fenceCloseChars : List Char := ("```").data

/-- One step of the line scanner, mirroring the loop body of
extract_rust_snippets: the open check runs first regardless of state, then
the close check, then accumulation. -/
def scanStep (st : ScanState) (line : List Char) : ScanState :=
  if fenceOpenChars.isPrefixOf (pyStrip line) then
    { st with inRustBlock := true, currentSnippet := [] }
  else if pyStrip line = fenceCloseChars ∧ st.inRustBlock then
    { snippets := st.snippets ++
        (if st.currentSnippet ≠ [] then
          (let sc := pyStrip (joinNl st.currentSnippet)
           if sc ≠ [] ∧ is_placeholder_snippet sc = false then [sc] else [])
         else []),
      inRustBlock := false, currentSnippet := [] }
  else if st.inRustBlock then
    { st with currentSnippet := st.currentSnippet ++ [line] }
  else st

/-- Initial scanner state. -/
def initState : ScanState :=
  { snippets := [], inRustBlock := false, currentSnippet := [] }

/-- Snippets collected from a list of lines. -/
def scanLines (lines : List (List Char)) : List (List Char) :=
  (lines.foldl scanStep initState).snippets

/-- Snippets collected from whole document text. -/
def scanSnippets (content : List Char) : List (List Char) :=
  scanLines (pySplitLines content)

/-! Output writer. -/

/-- Decimal digits of a natural number. -/
def natChars (n : Nat) : List Char := (Nat.repr n).data

/-- Name of the i-th snippet file. -/
def snippetFileName (name : List Char) (i : Nat) : List Char :=
  name ++ ("_snippet_").data ++ natChars i ++ (".rs").data

/-- Name of the count file. -/
def countFileName (name : List Char) : List Char :=
  ("count_").data ++ name ++ (".txt").data

/-- One numbered file write: the counter is incremented and the new file is
named with the incremented value. -/
def writeUnit (name : List Char) (acc : Nat × List (List Char × List Char))
    (text : List Char) : Nat × List (List Char × List Char) :=
  (acc.1 + 1, acc.2 ++ [(snippetFileName name (acc.1 + 1), text)])

/-- Per-snippet write step: a snippet with more than one derive-struct
match is replaced by its matches, otherwise it is written whole. -/
def writeSnippetStep (name : List Char) (acc : Nat × List (List Char × List Char))
    (snippet : List Char) : Nat × List (List Char × List Char) :=
  let ms := structMatches snippet
  if 1 < ms.length then ms.foldl (writeUnit name) acc
  else writeUnit name acc snippet

/-- Write loop over all snippets, with the counter starting at zero. -/
def writeSnippets (name : List Char) (snips : List (List Char)) :
    Nat × List (List Char × List Char) :=
  snips.foldl (writeSnippetStep name) (0, [])

/-- Result of the success path of a run: snippet files as name-content
pairs, the final counter value, and the count file. -/
structure ExtractRun where
  files : List (List Char × List Char)
  snippetCount : Nat
  countFile : List Char × List Char
  retCode : Nat
deriving DecidableEq

/-- Success path of extract_rust_snippets on pre-split lines: scan,
filter, split, number and write, then record the count. -/
def runExtractLines (lines : List (List Char)) (name : List Char) : ExtractRun :=
  let r := writeSnippets name (scanLines lines)
  { files := r.2, snippetCount := r.1,
    countFile := (countFileName name, natChars r.1), retCode := 0 }

/-- Success path of extract_rust_snippets on already-read document text. -/
def runExtract (content name : List Char) : ExtractRun :=
  runExtractLines (pySplitLines content) name

/-- Summary line printed on success. -/
def summaryChars (n : Nat) (path : List Char) : List Char :=
  ("Extracted ").data ++ natChars n ++ (" snippets from ").data ++ path

/-- Diagnostic line printed on a caught exception. -/
def errorChars (path msg : List Char) : List Char :=
  ("Error processing ").data ++ path ++ (": ").data ++ msg

/-- Usage line printed on a wrong argument count. -/
def usageChars : List Char :=
  ("Usage: extract_rust_snippets.py <file_path> <temp_dir> <safe_name>").data

/-- Full process outcome: files written, the two streams and the exit
code. -/
structure ProcOutcome where
  files : List (List Char × List Char)
  countFile : Option (List Char × List Char)
  stdoutLines : List (List Char)
  stderrLines : List (List Char)
  exitCode : Nat
deriving DecidableEq

/-- Embedding of extract_rust_snippets including its exception handler:
the readResult oracle stands for the outcome of reading and decoding the
input and of the writes, all caught by the one handler which prints a
diagnostic and returns one. -/
def extract_rust_snippets (readResult : Except (List Char) (List Char))
    (path name : List Char) : ProcOutcome :=
  match readResult with
  | .ok content =>
    let r := runExtract content name
    { files := r.files, countFile := some r.countFile,
      stdoutLines := [summaryChars r.snippetCount path],
      stderrLines := [], exitCode := 0 }
  | .error msg =>
    { files := [], countFile := none, stdoutLines := [],
      stderrLines := [errorChars path msg], exitCode := 1 }

/-- Embedding of the script entry point: argument-count check, then the
extraction call whose return value becomes the exit code. -/
def mainEntry (argv : List (List Char))
    (readResult : Except (List Char) (List Char)) : ProcOutcome :=
  if argv.length ≠ 4 then
    { files := [], countFile := none, stdoutLines := [],
      stderrLines := [usageChars], exitCode := 1 }
  else
    extract_rust_snippets readResult (argv.getD 1 []) (argv.getD 3 [])

/-! Auxiliary definitions used by the verification. -/

/-- Continuation that remains after the lazy body of the derive-struct
pattern: the closing brace then the end of the pattern. -/
def rbCont : List Char → Option (List Char) :=
  fun s2 => mtch (.cat (lchr '\x7d') .eps) s2 (fun v => some v)

/-- Seg s ms holds when the segments ms occur inside s in order, without
overlap: characters may be skipped between segments. -/
inductive Seg : List Char → List (List Char) → Prop where
  | nil (s : List Char) : Seg s []
  | skip (c : Char) {s : List Char} {ms : List (List Char)} :
      Seg s ms → Seg (c :: s) ms
  | seg (m : List Char) {s : List Char} {ms : List (List Char)} :
      Seg s ms → Seg (m ++ s) (m :: ms)

/-- Numbered files for a unit list, with the counter starting at n. -/
def enumFilesFrom (name : List Char) : Nat → List (List Char) → List (List Char × List Char)
  | _, [] => []
  | n, u :: us => (snippetFileName name (n + 1), u) :: enumFilesFrom name (n + 1) us

/-- Units produced for one snippet: its derive-struct matches when there
are at least two of them, otherwise the snippet itself. -/
def unitsFor (s : List Char) : List (List Char) :=
  if 1 < (structMatches s).length then structMatches s else [s]

/-- Units produced for a snippet list, in order. -/
def outUnits (snips : List (List Char)) : List (List Char) :=
  (snips.map unitsFor).flatten

/-- State of the block scanner. -/
structure BlockState where
  blocks : List (List (List Char))
  inRustBlock : Bool
  currentSnippet : List (List Char)
deriving DecidableEq

/-- Modelled from the spec: one scanner step that records the raw closed
block on a close fence instead of filtering it; used to state hypotheses
about well-formed fenced blocks. -/
def blockStep (st : BlockState) (line : List Char) : BlockState :=
  if fenceOpenChars.isPrefixOf (pyStrip line) then
    { st with inRustBlock := true, currentSnippet := [] }
  else if pyStrip line = fenceCloseChars ∧ st.inRustBlock then
    { blocks := st.blocks ++ [st.currentSnippet],
      inRustBlock := false, currentSnippet := [] }
  else if st.inRustBlock then
    { st with currentSnippet := st.currentSnippet ++ [line] }
  else st

/-- Modelled from the spec: the well-formed (closed) fenced blocks of a
document, as raw line lists, in document order. -/
def closedBlocks (lines : List (List Char)) : List (List (List Char)) :=
  (lines.foldl blockStep ⟨[], false, []⟩).blocks

/-- The emission filter applied to one raw closed block: drop an empty
accumulator, join and strip the lines, drop empty or placeholder text. -/
def keepBlock (b : List (List Char)) : Option (List Char) :=
  if b = [] then none
  else
    let sc := pyStrip (joinNl b)
    if sc ≠ [] ∧ is_placeholder_snippet sc = false then some sc else none

/-- Modelled from the spec words, for the refinement comparison of the
splitter: the derive-struct pattern with both gaps matched greedily, as
section 4.3 of the spec describes the matching. -/
def derivePatGreedySpec : RE :=
  rcats [lchr '#', lchr '[',
    lchr 'd', lchr 'e', lchr 'r', lchr 'i', lchr 'v', lchr 'e',
    .star anyCh true, lchr ']', wsStar, lchr '\n',
    lchr 's', lchr 't', lchr 'r', lchr 'u', lchr 'c', lchr 't',
    .ch isPySpace, wsStar, .ch isWordChar, .star isWordChar true, wsStar,
    lchr '\x7b', .star anyCh true, lchr '\x7d']

/-- Modelled from the spec words: the matches the splitter would find if
the pattern gaps were greedy. -/
def structMatchesGreedySpec (s : List Char) : List (List Char) :=
  scanFind derivePatGreedySpec (s.length + 1) s true

/-- Suffixes of a text that start right after a newline. -/
def lineStartTails : List Char → List (List Char)
  | [] => []
  | c :: s => if c = '\n' then s :: lineStartTails s else lineStartTails s

/-- Modelled from the spec words of claim C4: a placeholder check whose
stub patterns may match starting at any line beginning of the stripped
text, not only at its first character. -/
def lineStartMatch (code : List Char) : Bool :=
  let cs := pyStrip code
  (cs :: lineStartTails cs).any fun t =>
    placeholderPatterns.any fun p => (reMatch p t).isSome

/-! Lemmas about the option combinators used by the matcher. -/

theorem orElse_eq_some_iff {α : Type} (x : Option α) (f : Unit → Option α) (r : α) :
    Option.orElse x f = some r ↔ x = some r ∨ (x = none ∧ f () = some r) := by
  cases x <;> simp [Option.orElse]

theorem isSome_orElse {α : Type} (x : Option α) (f : Unit → Option α) :
    (Option.orElse x f).isSome = (x.isSome || (f ()).isSome) := by
  cases x <;> simp [Option.orElse]

/-! Unfolding equations of the matcher, for stepwise reasoning. -/

theorem mtch_eps (s : List Char) (k : List Char → Option (List Char)) :
    mtch .eps s k = k s := rfl

theorem mtch_ch_nil (p : Char → Bool) (k : List Char → Option (List Char)) :
    mtch (.ch p) [] k = none := rfl

theorem mtch_ch_cons (p : Char → Bool) (c : Char) (s : List Char)
    (k : List Char → Option (List Char)) :
    mtch (.ch p) (c :: s) k = if p c then k s else none := rfl

theorem mtch_cat (a b : RE) (s : List Char) (k : List Char → Option (List Char)) :
    mtch (.cat a b) s k = mtch a s (fun s2 => mtch b s2 k) := rfl

theorem mtch_star (p : Char → Bool) (g : Bool) (s : List Char)
    (k : List Char → Option (List Char)) :
    mtch (.star p g) s k = if g then starG p k s else starL p k s := rfl

theorem mtch_eol_nil (k : List Char → Option (List Char)) :
    mtch .eol [] k = k [] := rfl

theorem mtch_eol_cons (c : Char) (s : List Char) (k : List Char → Option (List Char)) :
    mtch .eol (c :: s) k = if c = '\n' then k (c :: s) else none := rfl

theorem starG_nil (p : Char → Bool) (k : List Char → Option (List Char)) :
    starG p k [] = k [] := rfl

theorem starG_cons (p : Char → Bool) (k : List Char → Option (List Char))
    (c : Char) (s : List Char) :
    starG p k (c :: s) =
      if p c then Option.orElse (starG p k s) (fun _ => k (c :: s))
      else k (c :: s) := rfl

theorem starL_nil (p : Char → Bool) (k : List Char → Option (List Char)) :
    starL p k [] = k [] := rfl

theorem starL_cons (p : Char → Bool) (k : List Char → Option (List Char))
    (c : Char) (s : List Char) :
    starL p k (c :: s) =
      Option.orElse (k (c :: s)) (fun _ => if p c then starL p k s else none) := rfl

/-! A successful match consumes a prefix and hands the matching suffix to
the continuation. -/

theorem starG_split (p : Char → Bool) :
    ∀ (s : List Char) (k : List Char → Option (List Char)) (r : List Char),
      starG p k s = some r → ∃ u s2, s = u ++ s2 ∧ k s2 = some r := by
  intro s
  induction s with
  | nil =>
    intro k r h
    exact ⟨[], [], rfl, h⟩
  | cons c s ih =>
    intro k r h
    rw [starG_cons] at h
    by_cases hp : p c
    · rw [if_pos hp, orElse_eq_some_iff] at h
      rcases h with h | ⟨_, h⟩
      · obtain ⟨u, s2, hu, hk⟩ := ih k r h
        exact ⟨c :: u, s2, by rw [hu, List.cons_append], hk⟩
      · exact ⟨[], c :: s, rfl, h⟩
    · rw [if_neg hp] at h
      exact ⟨[], c :: s, rfl, h⟩

theorem starL_split (p : Char → Bool) :
    ∀ (s : List Char) (k : List Char → Option (List Char)) (r : List Char),
      starL p k s = some r → ∃ u s2, s = u ++ s2 ∧ k s2 = some r := by
  intro s
  induction s with
  | nil =>
    intro k r h
    exact ⟨[], [], rfl, h⟩
  | cons c s ih =>
    intro k r h
    rw [starL_cons, orElse_eq_some_iff] at h
    rcases h with h | ⟨_, h⟩
    · exact ⟨[], c :: s, rfl, h⟩
    · by_cases hp : p c
      · rw [if_pos hp] at h
        obtain ⟨u, s2, hu, hk⟩ := ih k r h
        exact ⟨c :: u, s2, by rw [hu, List.cons_append], hk⟩
      · rw [if_neg hp] at h
        cases h

theorem mtch_split :
    ∀ (re : RE) (s : List Char) (k : List Char → Option (List Char)) (r : List Char),
      mtch re s k = some r → ∃ u s2, s = u ++ s2 ∧ k s2 = some r := by
  intro re
  induction re with
  | eps =>
    intro s k r h
    exact ⟨[], s, rfl, h⟩
  | ch p =>
    intro s k r h
    cases s with
    | nil => cases h
    | cons c s =>
      rw [mtch_ch_cons] at h
      by_cases hp : p c
      · rw [if_pos hp] at h
        exact ⟨[c], s, rfl, h⟩
      · rw [if_neg hp] at h
        cases h
  | cat a b iha ihb =>
    intro s k r h
    rw [mtch_cat] at h
    obtain ⟨u1, s1, hu1, h1⟩ := iha s _ r h
    obtain ⟨u2, s2, hu2, h2⟩ := ihb s1 k r h1
    exact ⟨u1 ++ u2, s2, by rw [hu1, hu2, List.append_assoc], h2⟩
  | star p g =>
    intro s k r h
    rw [mtch_star] at h
    cases g with
    | true => exact starG_split p s k r (by simpa using h)
    | false => exact starL_split p s k r (by simpa using h)
  | eol =>
    intro s k r h
    cases s with
    | nil => exact ⟨[], [], rfl, h⟩
    | cons c s =>
      rw [mtch_eol_cons] at h
      by_cases hc : c = '\n'
      · rw [if_pos hc] at h
        exact ⟨[], c :: s, rfl, h⟩
      · rw [if_neg hc] at h
        cases h

/-- Sequencing a split piece list is matching the first part with the
second part as continuation. -/
theorem mtch_rcats_append :
    ∀ (xs ys : List RE) (s : List Char) (k : List Char → Option (List Char)),
      mtch (rcats (xs ++ ys)) s k =
        mtch (rcats xs) s (fun s2 => mtch (rcats ys) s2 k) := by
  intro xs
  induction xs with
  | nil => intro ys s k; rfl
  | cons x xs ih =>
    intro ys s k
    rw [List.cons_append]
    show mtch (.cat x (rcats (xs ++ ys))) s k = _
    rw [mtch_cat]
    exact congrArg (mtch x s) (funext fun s2 => ih ys s2 k)

/-! Shape of the derive-struct matches: the lazy braced body stops at the
first closing brace. -/

theorem rbCont_cons (c : Char) (s : List Char) :
    rbCont (c :: s) = if decide (c = '\x7d') = true then some s else none := rfl

theorem starL_rb :
    ∀ (s r : List Char),
      starL anyCh rbCont s = some r ↔ ∃ b, s = b ++ '\x7d' :: r ∧ '\x7d' ∉ b := by
  intro s
  induction s with
  | nil =>
    intro r
    constructor
    · intro h; exact Option.noConfusion h
    · rintro ⟨b, hb, _⟩; cases b <;> simp at hb
  | cons c s ih =>
    intro r
    have hstep : starL anyCh rbCont (c :: s) =
        Option.orElse (rbCont (c :: s)) (fun _ => starL anyCh rbCont s) := rfl
    rw [hstep, rbCont_cons]
    by_cases hc : c = '\x7d'
    · rw [if_pos (by simp [hc])]
      constructor
      · intro h
        have hs : s = r := Option.some.inj h
        exact ⟨[], by rw [hc, hs]; rfl, by simp⟩
      · rintro ⟨b, hb, hnb⟩
        cases b with
        | nil =>
          have hs : s = r := by
            have := (List.cons.inj hb).2
            simpa using this
          show Option.orElse (some s) (fun _ => starL anyCh rbCont s) = some r
          rw [hs]
          rfl
        | cons e b =>
          rcases List.cons.inj hb with ⟨hce, _⟩
          refine absurd ?_ hnb
          rw [hc] at hce
          rw [hce]
          exact List.mem_cons_self e b
    · rw [if_neg (by simp [hc])]
      have hskip : Option.orElse (none : Option (List Char))
          (fun _ => starL anyCh rbCont s) = starL anyCh rbCont s := rfl
      rw [hskip, ih r]
      constructor
      · rintro ⟨b, hb, hnb⟩
        refine ⟨c :: b, by rw [List.cons_append, hb], ?_⟩
        intro hmem
        rcases List.mem_cons.1 hmem with h | h
        · exact hc h.symm
        · exact hnb h
      · rintro ⟨b, hb, hnb⟩
        cases b with
        | nil => exact absurd (List.cons.inj hb).1 hc
        | cons e b =>
          rcases List.cons.inj hb with ⟨_, hs⟩
          exact ⟨b, hs, fun h => hnb (List.mem_cons_of_mem e h)⟩

theorem deriveTail_eq_some (s r : List Char) :
    mtch (rcats deriveTail) s (fun v => some v) = some r ↔
      ∃ b, s = '\x7b' :: (b ++ '\x7d' :: r) ∧ '\x7d' ∉ b := by
  cases s with
  | nil =>
    constructor
    · intro h; exact Option.noConfusion h
    · rintro ⟨b, hb, _⟩; cases hb
  | cons c s =>
    have hstep : mtch (rcats deriveTail) (c :: s) (fun v => some v) =
        if decide (c = '\x7b') = true then starL anyCh rbCont s else none := rfl
    rw [hstep]
    by_cases hc : c = '\x7b'
    · rw [if_pos (by simp [hc]), starL_rb s r]
      constructor
      · rintro ⟨b, hb, hnb⟩
        exact ⟨b, by rw [hc, hb], hnb⟩
      · rintro ⟨b, hb, hnb⟩
        exact ⟨b, (List.cons.inj hb).2, hnb⟩
    · rw [if_neg (by simp [hc])]
      constructor
      · intro h; exact Option.noConfusion h
      · rintro ⟨b, hb, _⟩
        exact absurd (List.cons.inj hb).1 hc

/-- A successful anchored derive-struct match decomposes the text as an
annotation-and-head part, the opening brace, a body free of closing braces,
the first closing brace and the remainder. -/
theorem derive_shape (s r : List Char)
    (h : mtch derivePat s (fun v => some v) = some r) :
    ∃ a b, s = a ++ '\x7b' :: (b ++ '\x7d' :: r) ∧ '\x7d' ∉ b := by
  rw [derivePat, mtch_rcats_append] at h
  obtain ⟨u, s2, hu, h2⟩ := mtch_split _ _ _ _ h
  obtain ⟨b, hb, hnb⟩ := (deriveTail_eq_some s2 r).1 h2
  exact ⟨u, b, by rw [hu, hb], hnb⟩

/-! In-order, non-overlapping occurrence of segments inside a text. -/

/-- A successful anchored match at the scan head records the consumed
prefix and resumes after it. -/
theorem scanFind_cons_some (fuel : Nat) {pat : RE} {c : Char} {s rest : List Char}
    (hm : mtch pat (c :: s) (fun v => some v) = some rest) :
    ∃ u, c :: s = u ++ rest ∧
      scanFind pat (fuel + 1) (c :: s) true =
        u :: scanFind pat fuel rest (endsWithNl u) := by
  obtain ⟨u, s2, hu, hk⟩ := mtch_split pat (c :: s) _ rest hm
  have hs2 : s2 = rest := Option.some.inj hk
  rw [hs2] at hu
  refine ⟨u, hu, ?_⟩
  have htake : (c :: s).take ((c :: s).length - rest.length) = u := by
    rw [hu, List.length_append, Nat.add_sub_cancel, List.take_left]
  rw [scanFind, if_pos rfl]
  simp only [hm, htake]

/-- Skipping one position when no match starts there. -/
theorem scanFind_cons_none {pat : RE} {fuel : Nat} {c : Char} {s : List Char}
    (hm : mtch pat (c :: s) (fun v => some v) = none) :
    scanFind pat (fuel + 1) (c :: s) true =
      scanFind pat fuel s (decide (c = '\n')) := by
  rw [scanFind, if_pos rfl]
  simp only [hm]

/-- Skipping one position that is not a line start. -/
theorem scanFind_cons_false {pat : RE} {fuel : Nat} {c : Char} {s : List Char} :
    scanFind pat (fuel + 1) (c :: s) false =
      scanFind pat fuel s (decide (c = '\n')) := rfl

/-- The matches found by the scan occur inside the text in order and
without overlap. -/
theorem scanFind_seg (pat : RE) :
    ∀ (fuel : Nat) (s : List Char) (b : Bool), Seg s (scanFind pat fuel s b) := by
  intro fuel
  induction fuel with
  | zero => intro s b; exact Seg.nil s
  | succ fuel ih =>
    intro s b
    cases s with
    | nil => exact Seg.nil []
    | cons c s =>
      cases b with
      | false =>
        rw [scanFind_cons_false]
        exact Seg.skip c (ih s _)
      | true =>
        cases hm : mtch pat (c :: s) (fun v => some v) with
        | none =>
          rw [scanFind_cons_none hm]
          exact Seg.skip c (ih s _)
        | some rest =>
          obtain ⟨u, hu, hrw⟩ := scanFind_cons_some fuel hm
          rw [hrw, hu]
          exact Seg.seg u (ih rest _)

/-- Every match of the derive-struct scan ends at the first closing brace
after its opening brace. -/
theorem scanFind_mem_shape :
    ∀ (fuel : Nat) (s : List Char) (b : Bool) (m : List Char),
      m ∈ scanFind derivePat fuel s b →
      ∃ a bd, m = a ++ '\x7b' :: (bd ++ ['\x7d']) ∧ '\x7d' ∉ bd := by
  intro fuel
  induction fuel with
  | zero => intro s b m h; exact absurd h (List.not_mem_nil m)
  | succ fuel ih =>
    intro s b m h
    cases s with
    | nil => exact absurd h (List.not_mem_nil m)
    | cons c s =>
      cases b with
      | false =>
        rw [scanFind_cons_false] at h
        exact ih s _ m h
      | true =>
        cases hm : mtch derivePat (c :: s) (fun v => some v) with
        | none =>
          rw [scanFind_cons_none hm] at h
          exact ih s _ m h
        | some rest =>
          obtain ⟨u, hu, hrw⟩ := scanFind_cons_some fuel hm
          rw [hrw] at h
          rcases List.mem_cons.1 h with h | h
          · obtain ⟨a, bd, hs, hnb⟩ := derive_shape (c :: s) rest hm
            have hflat : c :: s = (a ++ '\x7b' :: (bd ++ ['\x7d'])) ++ rest := by
              rw [hs]
              simp [List.append_assoc]
            have hu2 : u = a ++ '\x7b' :: (bd ++ ['\x7d']) :=
              List.append_cancel_right (hu.symm.trans hflat)
            exact ⟨a, bd, h.trans hu2, hnb⟩
          · exact ih rest _ m h

/-- Shape of a derive-struct match of a snippet. -/
theorem structMatches_shape {t m : List Char} (h : m ∈ structMatches t) :
    ∃ a bd, m = a ++ '\x7b' :: (bd ++ ['\x7d']) ∧ '\x7d' ∉ bd :=
  scanFind_mem_shape _ t true m h

/-- A derive-struct match is never empty. -/
theorem structMatches_ne_nil {t m : List Char} (h : m ∈ structMatches t) :
    m ≠ [] := by
  obtain ⟨a, bd, hm, _⟩ := structMatches_shape h
  rw [hm]
  cases a <;> simp

/-- The matches of a snippet occur inside it in order, without overlap. -/
theorem structMatches_seg (t : List Char) : Seg t (structMatches t) :=
  scanFind_seg derivePat _ t true

/-- Total length of in-order segments is bounded by the text length. -/
theorem Seg.sum_le {s : List Char} {ms : List (List Char)} (h : Seg s ms) :
    (ms.map List.length).sum ≤ s.length := by
  induction h with
  | nil s => simp
  | skip c h ih =>
    simp only [List.length_cons]
    exact Nat.le_succ_of_le ih
  | seg m h ih =>
    simp only [List.map_cons, List.sum_cons, List.length_append]
    exact Nat.add_le_add_left ih _

/-- Among at least two nonempty segments, each is strictly shorter than
their total length. -/
theorem mem_len_succ_le_sum :
    ∀ (ms : List (List Char)) (m : List Char), m ∈ ms →
      (∀ x ∈ ms, x ≠ []) → 2 ≤ ms.length →
      m.length + 1 ≤ (ms.map List.length).sum := by
  intro ms
  induction ms with
  | nil => intro m hm _ _; exact absurd hm (List.not_mem_nil m)
  | cons a t ih =>
    intro m hm hall h2
    rcases List.mem_cons.1 hm with rfl | hm'
    · cases t with
      | nil => simp at h2
      | cons b t2 =>
        have hb : b ≠ [] := hall b (by simp)
        have hb1 : 1 ≤ b.length := by
          cases b with
          | nil => exact absurd rfl hb
          | cons x xs => simp
        simp only [List.map_cons, List.sum_cons]
        omega
    · have hle : m.length ≤ (t.map List.length).sum :=
        List.le_sum_of_mem (List.mem_map_of_mem List.length hm')
      have ha : a ≠ [] := hall a (by simp)
      have ha1 : 1 ≤ a.length := by
        cases a with
        | nil => exact absurd rfl ha
        | cons x xs => simp
      simp only [List.map_cons, List.sum_cons]
      omega

/-- When a snippet has at least two derive-struct matches, none of them is
the whole snippet. -/
theorem structMatches_mem_ne_self {s m : List Char}
    (h2 : 2 ≤ (structMatches s).length) (hm : m ∈ structMatches s) : m ≠ s := by
  have hsum := (structMatches_seg s).sum_le
  have hlt := mem_len_succ_le_sum (structMatches s) m hm
    (fun x hx => structMatches_ne_nil hx) h2
  intro he
  rw [he] at hlt
  omega

/-! Write-loop invariant: the counter counts the written files and names
them consecutively. -/

theorem enumFilesFrom_append (name : List Char) :
    ∀ (xs ys : List (List Char)) (n : Nat),
      enumFilesFrom name n (xs ++ ys) =
        enumFilesFrom name n xs ++ enumFilesFrom name (n + xs.length) ys := by
  intro xs
  induction xs with
  | nil =>
    intro ys n
    show enumFilesFrom name n ys = enumFilesFrom name (n + 0) ys
    rw [Nat.add_zero]
  | cons x xs ih =>
    intro ys n
    show (snippetFileName name (n + 1), x) :: enumFilesFrom name (n + 1) (xs ++ ys) =
      (snippetFileName name (n + 1), x) ::
        (enumFilesFrom name (n + 1) xs ++ enumFilesFrom name (n + (xs.length + 1)) ys)
    rw [ih ys (n + 1),
      (by omega : n + (xs.length + 1) = n + 1 + xs.length)]

theorem enumFilesFrom_length (name : List Char) :
    ∀ (us : List (List Char)) (n : Nat), (enumFilesFrom name n us).length = us.length := by
  intro us
  induction us with
  | nil => intro n; rfl
  | cons u us ih => intro n; simp [enumFilesFrom, ih]

theorem enumFilesFrom_map_snd (name : List Char) :
    ∀ (us : List (List Char)) (n : Nat),
      (enumFilesFrom name n us).map Prod.snd = us := by
  intro us
  induction us with
  | nil => intro n; rfl
  | cons u us ih => intro n; simp [enumFilesFrom, ih]

theorem enumFilesFrom_map_fst (name : List Char) :
    ∀ (us : List (List Char)) (n : Nat),
      (enumFilesFrom name n us).map Prod.fst =
        (List.range us.length).map (fun i => snippetFileName name (n + i + 1)) := by
  intro us
  induction us with
  | nil => intro n; rfl
  | cons u us ih =>
    intro n
    simp only [enumFilesFrom, List.map_cons, ih (n + 1), List.length_cons,
      List.range_succ_eq_map, List.map_map]
    refine congrArg₂ _ (by simp) ?_
    refine List.map_congr_left fun i _ => ?_
    show snippetFileName name (n + 1 + i + 1) = snippetFileName name (n + (i + 1) + 1)
    exact congrArg (snippetFileName name) (by omega)

theorem foldl_writeUnit (name : List Char) :
    ∀ (units : List (List Char)) (acc : Nat × List (List Char × List Char)),
      units.foldl (writeUnit name) acc =
        (acc.1 + units.length, acc.2 ++ enumFilesFrom name acc.1 units) := by
  intro units
  induction units with
  | nil => intro acc; simp [enumFilesFrom]
  | cons u us ih =>
    intro acc
    rw [List.foldl_cons, ih (writeUnit name acc u)]
    show (acc.1 + 1 + us.length,
        (acc.2 ++ [(snippetFileName name (acc.1 + 1), u)]) ++
          enumFilesFrom name (acc.1 + 1) us) =
      (acc.1 + (us.length + 1),
        acc.2 ++ ((snippetFileName name (acc.1 + 1), u) ::
          enumFilesFrom name (acc.1 + 1) us))
    refine congrArg₂ Prod.mk (by omega) ?_
    rw [List.append_assoc]
    rfl

theorem writeSnippetStep_eq (name : List Char)
    (acc : Nat × List (List Char × List Char)) (s : List Char) :
    writeSnippetStep name acc s =
      (acc.1 + (unitsFor s).length, acc.2 ++ enumFilesFrom name acc.1 (unitsFor s)) := by
  show (if 1 < (structMatches s).length then (structMatches s).foldl (writeUnit name) acc
      else writeUnit name acc s) = _
  rw [unitsFor]
  by_cases h : 1 < (structMatches s).length
  · rw [if_pos h, if_pos h, foldl_writeUnit]
  · rw [if_neg h, if_neg h]
    rfl

theorem writeSnippets_fold (name : List Char) :
    ∀ (snips : List (List Char)) (acc : Nat × List (List Char × List Char)),
      snips.foldl (writeSnippetStep name) acc =
        (acc.1 + (outUnits snips).length,
          acc.2 ++ enumFilesFrom name acc.1 (outUnits snips)) := by
  intro snips
  induction snips with
  | nil => intro acc; simp [outUnits, enumFilesFrom]
  | cons s t ih =>
    intro acc
    have hout : outUnits (s :: t) = unitsFor s ++ outUnits t := by
      simp [outUnits]
    rw [List.foldl_cons, ih (writeSnippetStep name acc s), writeSnippetStep_eq, hout,
      List.length_append, enumFilesFrom_append]
    show (acc.1 + (unitsFor s).length + (outUnits t).length,
        (acc.2 ++ enumFilesFrom name acc.1 (unitsFor s)) ++
          enumFilesFrom name (acc.1 + (unitsFor s).length) (outUnits t)) =
      (acc.1 + ((unitsFor s).length + (outUnits t).length),
        acc.2 ++ (enumFilesFrom name acc.1 (unitsFor s) ++
          enumFilesFrom name (acc.1 + (unitsFor s).length) (outUnits t)))
    refine congrArg₂ Prod.mk (by omega) ?_
    rw [List.append_assoc]

/-- The write loop writes exactly the output units, numbered from one, and
its final counter is their number. -/
theorem writeSnippets_spec (name : List Char) (snips : List (List Char)) :
    writeSnippets name snips =
      ((outUnits snips).length, enumFilesFrom name 0 (outUnits snips)) := by
  rw [writeSnippets, writeSnippets_fold]
  show ((0 : Nat) + (outUnits snips).length,
      ([] : List (List Char × List Char)) ++ enumFilesFrom name 0 (outUnits snips)) = _
  rw [Nat.zero_add, List.nil_append]

/-! Scanner invariants. -/

/-- A line that opens no rust fence leaves an outside-block state
unchanged. -/
theorem scanStep_outside {st : ScanState} {line : List Char}
    (hopen : fenceOpenChars.isPrefixOf (pyStrip line) = false)
    (hin : st.inRustBlock = false) :
    scanStep st line = st := by
  rw [scanStep, if_neg (by simp [hopen]), if_neg (by simp [hin]),
    if_neg (by simp [hin])]

/-- With no opening-fence line at all, the scan leaves an outside-block
state unchanged. -/
theorem scanFold_no_open :
    ∀ (lines : List (List Char)) (st : ScanState),
      (∀ l ∈ lines, fenceOpenChars.isPrefixOf (pyStrip l) = false) →
      st.inRustBlock = false →
      lines.foldl scanStep st = st := by
  intro lines
  induction lines with
  | nil => intro st _ _; rfl
  | cons l ls ih =>
    intro st h hin
    rw [List.foldl_cons, scanStep_outside (h l (List.mem_cons_self l ls)) hin]
    exact ih st (fun x hx => h x (List.mem_cons_of_mem l hx)) hin

/-- With no bare closing-fence line, the scan emits no snippet. -/
theorem scanFold_no_close :
    ∀ (lines : List (List Char)) (st : ScanState),
      (∀ l ∈ lines, pyStrip l ≠ fenceCloseChars) →
      (lines.foldl scanStep st).snippets = st.snippets := by
  intro lines
  induction lines with
  | nil => intro st _; rfl
  | cons l ls ih =>
    intro st h
    rw [List.foldl_cons,
      ih (scanStep st l) (fun x hx => h x (List.mem_cons_of_mem l hx))]
    rw [scanStep]
    by_cases h1 : fenceOpenChars.isPrefixOf (pyStrip l) = true
    · rw [if_pos h1]
    · rw [if_neg h1,
        if_neg (by
          intro hc
          exact h l (List.mem_cons_self l ls) hc.1)]
      by_cases h3 : st.inRustBlock = true
      · rw [if_pos h3]
      · rw [if_neg h3]

/-! Relation between the line scanner and the block scanner. -/

/-- One scanner step tracks one block-scanner step through the emission
filter. -/
theorem scanStep_blockStep (bl : List (List (List Char))) (inB : Bool)
    (cur : List (List Char)) (l : List Char) :
    scanStep ⟨bl.filterMap keepBlock, inB, cur⟩ l =
      ⟨(blockStep ⟨bl, inB, cur⟩ l).blocks.filterMap keepBlock,
        (blockStep ⟨bl, inB, cur⟩ l).inRustBlock,
        (blockStep ⟨bl, inB, cur⟩ l).currentSnippet⟩ := by
  rw [scanStep, blockStep]
  by_cases h1 : fenceOpenChars.isPrefixOf (pyStrip l) = true
  · rw [if_pos h1, if_pos h1]
  · rw [if_neg h1, if_neg h1]
    by_cases h2 : pyStrip l = fenceCloseChars ∧ inB = true
    · rw [if_pos h2, if_pos h2]
      show ScanState.mk _ false [] = ScanState.mk _ false []
      refine congrArg₂ (fun a b => ScanState.mk a b []) ?_ rfl
      rw [List.filterMap_append]
      refine congrArg (bl.filterMap keepBlock ++ ·) ?_
      show (if cur ≠ [] then _ else []) = (keepBlock cur).toList
      rw [keepBlock]
      by_cases hc : cur = []
      · rw [if_neg (by simp [hc]), if_pos hc]
        rfl
      · rw [if_pos hc, if_neg hc]
        by_cases hk : pyStrip (joinNl cur) ≠ [] ∧
            is_placeholder_snippet (pyStrip (joinNl cur)) = false
        · rw [if_pos hk, if_pos hk]
          rfl
        · rw [if_neg hk, if_neg hk]
          rfl
    · rw [if_neg h2, if_neg h2]
      by_cases h3 : inB = true
      · rw [if_pos h3, if_pos h3]
      · rw [if_neg h3, if_neg h3]

/-- The scanner computes exactly the filtered closed blocks. -/
theorem scanFold_blockFold :
    ∀ (lines : List (List Char)) (bl : List (List (List Char))) (inB : Bool)
      (cur : List (List Char)),
      lines.foldl scanStep ⟨bl.filterMap keepBlock, inB, cur⟩ =
        ⟨((lines.foldl blockStep ⟨bl, inB, cur⟩).blocks).filterMap keepBlock,
          (lines.foldl blockStep ⟨bl, inB, cur⟩).inRustBlock,
          (lines.foldl blockStep ⟨bl, inB, cur⟩).currentSnippet⟩ := by
  intro lines
  induction lines with
  | nil => intro bl inB cur; rfl
  | cons l ls ih =>
    intro bl inB cur
    rw [List.foldl_cons, List.foldl_cons, scanStep_blockStep]
    exact ih (blockStep ⟨bl, inB, cur⟩ l).blocks
      (blockStep ⟨bl, inB, cur⟩ l).inRustBlock
      (blockStep ⟨bl, inB, cur⟩ l).currentSnippet

/-- The snippets of a document are its well-formed blocks, joined,
stripped and filtered. -/
theorem scanLines_eq_blocks (lines : List (List Char)) :
    scanLines lines = (closedBlocks lines).filterMap keepBlock := by
  have h := scanFold_blockFold lines [] false []
  rw [scanLines, closedBlocks]
  show (lines.foldl scanStep ⟨([] : List (List (List Char))).filterMap keepBlock,
    false, []⟩).snippets = _
  rw [h]

/-! Anchoring of the placeholder patterns: they can only match from the
first character of the stripped text. -/

theorem dropWhile_head_false {p : Char → Bool} :
    ∀ {l : List Char} {c : Char} {r : List Char},
      l.dropWhile p = c :: r → p c = false := by
  intro l
  induction l with
  | nil => intro c r h; cases h
  | cons a l ih =>
    intro c r h
    rw [List.dropWhile_cons] at h
    by_cases hp : p a
    · rw [if_pos (by simp [hp])] at h
      exact ih h
    · rw [if_neg (by simp [hp])] at h
      rw [← (List.cons.inj h).1]
      simpa using hp

/-- The first character of a stripped text is not whitespace. -/
theorem pyStrip_head_not_space {code : List Char} {c : Char} {cs : List Char}
    (h : pyStrip code = c :: cs) : isPySpace c = false := by
  have hsplit : code.dropWhile isPySpace =
      pyStrip code ++
        ((code.dropWhile isPySpace).reverse.takeWhile isPySpace).reverse := by
    conv_lhs => rw [← List.reverse_reverse (code.dropWhile isPySpace),
      ← List.takeWhile_append_dropWhile isPySpace
        (code.dropWhile isPySpace).reverse]
    rw [List.reverse_append]
    rfl
  rw [h, List.cons_append] at hsplit
  exact dropWhile_head_false hsplit

theorem rcats_cons (r : RE) (rs : List RE) : rcats (r :: rs) = .cat r (rcats rs) := rfl

/-- A greedy whitespace star is transparent before a non-whitespace
character. -/
theorem mtch_wsStar_cons_notws {re : RE} {c : Char} {cs : List Char}
    {k : List Char → Option (List Char)} (hws : isPySpace c = false) :
    mtch (.cat wsStar re) (c :: cs) k = mtch re (c :: cs) k := by
  show starG isPySpace (fun s2 => mtch re s2 k) (c :: cs) = _
  rw [starG_cons, if_neg (by simp [hws])]

/-- A literal fails on a different character. -/
theorem mtch_lchr_cons_ne {re : RE} {c d : Char} {cs : List Char}
    {k : List Char → Option (List Char)} (hne : c ≠ d) :
    mtch (.cat (lchr d) re) (c :: cs) k = none := by
  show (if decide (c = d) = true then mtch re cs k else none) = none
  rw [if_neg (by simp [hne])]

theorem pat1_head_fail {c : Char} {cs : List Char} (hws : isPySpace c = false)
    (hc : c ≠ '/') : (reMatch pat1 (c :: cs)).isSome = false := by
  rw [reMatch, pat1, rcats_cons, mtch_wsStar_cons_notws hws, rcats_cons,
    mtch_lchr_cons_ne hc]
  rfl

theorem pat2_head_fail {c : Char} {cs : List Char} (hws : isPySpace c = false)
    (hc : c ≠ '/') : (reMatch pat2 (c :: cs)).isSome = false := by
  rw [reMatch, pat2, rcats_cons, mtch_wsStar_cons_notws hws, rcats_cons,
    mtch_lchr_cons_ne hc]
  rfl

theorem pat3_head_fail {c : Char} {cs : List Char} (hws : isPySpace c = false)
    (hc : c ≠ '#') : (reMatch pat3 (c :: cs)).isSome = false := by
  rw [reMatch, pat3, rcats_cons, mtch_wsStar_cons_notws hws, rcats_cons,
    mtch_lchr_cons_ne hc]
  rfl

theorem pat4_head_fail {c : Char} {cs : List Char} (hws : isPySpace c = false)
    (hc : c ≠ '.') : (reMatch pat4 (c :: cs)).isSome = false := by
  rw [reMatch, pat4, rcats_cons, mtch_wsStar_cons_notws hws, rcats_cons,
    mtch_lchr_cons_ne hc]
  rfl

/-! Claim theorems. -/

/-- C1: on every successful run, the count file holds exactly the decimal
of the number of snippet files written, and the snippet files are named
with consecutive indices from one up to that count. -/
theorem claimC1 (content name : List Char) :
    (runExtract content name).countFile.2 =
        natChars (runExtract content name).files.length ∧
      (runExtract content name).files.map Prod.fst =
        (List.range (runExtract content name).files.length).map
          (fun i => snippetFileName name (i + 1)) := by
  have hw := writeSnippets_spec name (scanLines (pySplitLines content))
  have hfiles : (runExtract content name).files =
      enumFilesFrom name 0 (outUnits (scanLines (pySplitLines content))) := by
    show (writeSnippets name (scanLines (pySplitLines content))).2 = _
    rw [hw]
  have hfst : (writeSnippets name (scanLines (pySplitLines content))).1 =
      (outUnits (scanLines (pySplitLines content))).length := by
    rw [hw]
  have hcount : (runExtract content name).countFile.2 =
      natChars (writeSnippets name (scanLines (pySplitLines content))).1 := rfl
  have hlen : (runExtract content name).files.length =
      (outUnits (scanLines (pySplitLines content))).length := by
    rw [hfiles, enumFilesFrom_length]
  constructor
  · rw [hcount, hfst, hlen]
  · rw [hlen, hfiles, enumFilesFrom_map_fst]
    refine List.map_congr_left fun i _ => ?_
    show snippetFileName name (0 + i + 1) = snippetFileName name (i + 1)
    rw [Nat.zero_add]

/-- C2: a document whose only well-formed fenced rust block strips to
substantial non-placeholder content with at most one derive-struct match
produces exactly one file holding the stripped block content, and the
count file holds the string one. -/
theorem claimC2 (content name : List Char) (b : List (List Char))
    (hb : closedBlocks (pySplitLines content) = [b])
    (hlen : 10 ≤ (pyStrip (joinNl b)).length)
    (hplc : is_placeholder_snippet (pyStrip (joinNl b)) = false)
    (hsplit : (structMatches (pyStrip (joinNl b))).length ≤ 1) :
    (runExtract content name).files =
        [(snippetFileName name 1, pyStrip (joinNl b))] ∧
      (runExtract content name).countFile.2 = ['1'] := by
  have hscne : pyStrip (joinNl b) ≠ [] := by
    intro h0
    rw [h0] at hlen
    simp at hlen
  have hbne : b ≠ [] := by
    intro h0
    rw [h0] at hlen
    exact absurd hlen (by decide)
  have hk : keepBlock b = some (pyStrip (joinNl b)) := by
    show (if b = [] then none
      else if pyStrip (joinNl b) ≠ [] ∧ is_placeholder_snippet (pyStrip (joinNl b)) = false
        then some (pyStrip (joinNl b)) else none) = _
    rw [if_neg hbne, if_pos ⟨hscne, hplc⟩]
  have hscan : scanLines (pySplitLines content) = [pyStrip (joinNl b)] := by
    rw [scanLines_eq_blocks, hb]
    simp [List.filterMap_cons, hk]
  have hunits : outUnits [pyStrip (joinNl b)] = [pyStrip (joinNl b)] := by
    have h1 : ¬1 < (structMatches (pyStrip (joinNl b))).length := by omega
    simp [outUnits, unitsFor, h1]
  constructor
  · show (writeSnippets name (scanLines (pySplitLines content))).2 = _
    rw [hscan, writeSnippets_spec, hunits]
    rfl
  · show natChars (writeSnippets name (scanLines (pySplitLines content))).1 = _
    rw [hscan, writeSnippets_spec, hunits]
    show natChars 1 = ['1']
    decide

/-- C2 witness at a one-block document holding a function definition. -/
theorem claimC2_witness :
    (runExtract (("```rust\nfn add(a: i32, b: i32) -> i32 \x7b a + b \x7d\n```").data)
          (("doc").data)).files =
        [(snippetFileName (("doc").data) 1,
          ("fn add(a: i32, b: i32) -> i32 \x7b a + b \x7d").data)] ∧
      (runExtract (("```rust\nfn add(a: i32, b: i32) -> i32 \x7b a + b \x7d\n```").data)
          (("doc").data)).countFile.2 = ['1'] :=
  claimC2 (("```rust\nfn add(a: i32, b: i32) -> i32 \x7b a + b \x7d\n```").data)
    (("doc").data) [("fn add(a: i32, b: i32) -> i32 \x7b a + b \x7d").data]
    (by decide) (by decide) (by decide) (by decide)

/-- C3: a document in which no line opens a rust fence yields no snippet
file, a count file holding zero, and return value zero. -/
theorem claimC3 (content name : List Char)
    (h : ∀ l ∈ pySplitLines content, fenceOpenChars.isPrefixOf (pyStrip l) = false) :
    (runExtract content name).files = [] ∧
      (runExtract content name).countFile.2 = ['0'] ∧
      (runExtract content name).retCode = 0 := by
  have hscan : scanLines (pySplitLines content) = [] := by
    rw [scanLines, scanFold_no_open (pySplitLines content) initState h rfl]
    rfl
  refine ⟨?_, ?_, rfl⟩
  · show (writeSnippets name (scanLines (pySplitLines content))).2 = []
    rw [hscan]
    rfl
  · show natChars (writeSnippets name (scanLines (pySplitLines content))).1 = ['0']
    rw [hscan]
    show natChars 0 = ['0']
    decide

/-- C3 witness at a document of prose without fences. -/
theorem claimC3_witness :
    (runExtract (("just prose\nno fences here").data) (("n").data)).files = [] ∧
      (runExtract (("just prose\nno fences here").data) (("n").data)).countFile.2 = ['0'] ∧
      (runExtract (("just prose\nno fences here").data) (("n").data)).retCode = 0 :=
  claimC3 (("just prose\nno fences here").data) (("n").data) (by decide)

/-- C4 counterexample: a snippet whose second line is a bare ellipsis stub
satisfies the any-line-start matching the claim describes, yet the filter
keeps it: the patterns never match beyond the first character of the
stripped text. -/
theorem claimC4_counterexample :
    lineStartMatch (("fn main() \x7b\x7d\n...").data) = true ∧
      is_placeholder_snippet (("fn main() \x7b\x7d\n...").data) = false := by
  constructor <;> decide

/-- C4 (amended): the stub-marker matching is anchored at the start of the
stripped text; whenever the first character is none of the characters a
pattern can start with, the whole placeholder decision reduces to the
length check, so stub lines at later line starts are ignored. -/
theorem claimC4_theorem (code : List Char) (c : Char) (cs : List Char)
    (h : pyStrip code = c :: cs) (h1 : c ≠ '/') (h2 : c ≠ '#') (h3 : c ≠ '.') :
    is_placeholder_snippet code = decide ((c :: cs).length < 10) := by
  have hws := pyStrip_head_not_space h
  show (if (placeholderPatterns.any fun p => (reMatch p (pyStrip code)).isSome) = true
      then true
      else if (pyStrip code).length < 10 then true else false) = _
  rw [h]
  have hany : (placeholderPatterns.any fun p => (reMatch p (c :: cs)).isSome) = false := by
    show ((reMatch pat1 (c :: cs)).isSome ||
        ((reMatch pat2 (c :: cs)).isSome ||
          ((reMatch pat3 (c :: cs)).isSome ||
            ((reMatch pat4 (c :: cs)).isSome || false)))) = false
    rw [pat1_head_fail hws h1, pat2_head_fail hws h1, pat3_head_fail hws h2,
      pat4_head_fail hws h3]
    rfl
  rw [hany, if_neg (by decide)]
  by_cases hlt : (c :: cs).length < 10
  · rw [if_pos hlt]
    exact (decide_eq_true hlt).symm
  · rw [if_neg hlt]
    exact (decide_eq_false hlt).symm

/-- C4 witness at a snippet headed by a function definition. -/
theorem claimC4_witness :
    is_placeholder_snippet (("fn main() \x7b\x7d").data) =
      decide (('f' :: ("n main() \x7b\x7d").data).length < 10) :=
  claimC4_theorem (("fn main() \x7b\x7d").data) 'f' (("n main() \x7b\x7d").data)
    (by decide) (by decide) (by decide) (by decide)

/-- C5 counterexample: with a nested opening fence the scanner discards
the previously accumulated lines and does not append the fence line: the
claim predicts one snippet holding the first line, the fence line and the
second line, but the run emits only the second line. -/
theorem claimC5_counterexample :
    scanSnippets (("```rust\nlet alpha = 1;\n```rust\nlet beta = 22;\n```").data) =
        [("let beta = 22;").data] ∧
      scanSnippets (("```rust\nlet alpha = 1;\n```rust\nlet beta = 22;\n```").data) ≠
        [("let alpha = 1;\n```rust\nlet beta = 22;").data] := by
  constructor <;> decide

/-- C5 (amended): an opening-fence line met while inside a block re-enters
the open branch: the accumulator is reset, the accumulated lines are
discarded, the fence line itself is not appended and the scanner stays
inside a block; emitted snippets are untouched. -/
theorem claimC5_theorem (st : ScanState) (line : List Char)
    (_hin : st.inRustBlock = true)
    (hopen : fenceOpenChars.isPrefixOf (pyStrip line) = true) :
    scanStep st line =
      { snippets := st.snippets, inRustBlock := true, currentSnippet := [] } := by
  rw [scanStep, if_pos hopen]

/-- C5 witness at a concrete inside-block state and fence line. -/
theorem claimC5_witness :
    scanStep ⟨[['a']], true, [['x']]⟩ (("```rust").data) =
      { snippets := [['a']], inRustBlock := true, currentSnippet := [] } :=
  claimC5_theorem ⟨[['a']], true, [['x']]⟩ (("```rust").data) rfl (by decide)

/-- C6: a kept snippet with two or more derive-struct matches is replaced
by one file per match, holding exactly the matched texts in match order,
named with consecutive indices, and no file holds the original combined
snippet. -/
theorem claimC6 (content name s : List Char)
    (hscan : scanSnippets content = [s])
    (h2 : 2 ≤ (structMatches s).length) :
    (runExtract content name).files.map Prod.snd = structMatches s ∧
      (∀ f ∈ (runExtract content name).files, f.2 ≠ s) ∧
      (runExtract content name).files.map Prod.fst =
        (List.range (structMatches s).length).map
          (fun i => snippetFileName name (i + 1)) := by
  have hu : outUnits [s] = structMatches s := by
    have h1 : 1 < (structMatches s).length := by omega
    simp [outUnits, unitsFor, h1]
  have hscan2 : scanLines (pySplitLines content) = [s] := hscan
  have hfiles : (runExtract content name).files =
      enumFilesFrom name 0 (structMatches s) := by
    show (writeSnippets name (scanLines (pySplitLines content))).2 = _
    rw [hscan2, writeSnippets_spec, hu]
  refine ⟨?_, ?_, ?_⟩
  · rw [hfiles, enumFilesFrom_map_snd]
  · intro f hf
    rw [hfiles] at hf
    have hmem : f.2 ∈ (enumFilesFrom name 0 (structMatches s)).map Prod.snd :=
      List.mem_map_of_mem Prod.snd hf
    rw [enumFilesFrom_map_snd] at hmem
    exact structMatches_mem_ne_self h2 hmem
  · rw [hfiles, enumFilesFrom_map_fst]
    refine List.map_congr_left fun i _ => ?_
    show snippetFileName name (0 + i + 1) = snippetFileName name (i + 1)
    rw [Nat.zero_add]

/-- C6 witness at a one-block document holding two derive-struct
definitions. -/
theorem claimC6_witness :
    (runExtract
        (("```rust\n#[derive(Debug)]\nstruct A \x7b x: u8 \x7d\n#[derive(Clone)]\nstruct B \x7b y: u8 \x7d\n```").data)
        (("doc").data)).files.map Prod.snd =
      structMatches
        (("#[derive(Debug)]\nstruct A \x7b x: u8 \x7d\n#[derive(Clone)]\nstruct B \x7b y: u8 \x7d").data) :=
  (claimC6
    (("```rust\n#[derive(Debug)]\nstruct A \x7b x: u8 \x7d\n#[derive(Clone)]\nstruct B \x7b y: u8 \x7d\n```").data)
    (("doc").data)
    (("#[derive(Debug)]\nstruct A \x7b x: u8 \x7d\n#[derive(Clone)]\nstruct B \x7b y: u8 \x7d").data)
    (by decide) (by decide)).1

/-- C7 counterexample: on a snippet holding two derive-struct definitions
the greedy matching the claim describes yields a single whole-text match,
while the splitter yields two matches each ending at the first closing
brace, so the bodies do not extend as far as possible. -/
theorem claimC7_counterexample :
    structMatchesGreedySpec
        (("#[derive(Debug)]\nstruct A \x7b x: u8 \x7d\n#[derive(Clone)]\nstruct B \x7b y: u8 \x7d").data) =
        [("#[derive(Debug)]\nstruct A \x7b x: u8 \x7d\n#[derive(Clone)]\nstruct B \x7b y: u8 \x7d").data] ∧
      structMatches
        (("#[derive(Debug)]\nstruct A \x7b x: u8 \x7d\n#[derive(Clone)]\nstruct B \x7b y: u8 \x7d").data) =
        [("#[derive(Debug)]\nstruct A \x7b x: u8 \x7d").data,
          ("#[derive(Clone)]\nstruct B \x7b y: u8 \x7d").data] ∧
      structMatches
        (("#[derive(Debug)]\nstruct A \x7b x: u8 \x7d\n#[derive(Clone)]\nstruct B \x7b y: u8 \x7d").data) ≠
        structMatchesGreedySpec
        (("#[derive(Debug)]\nstruct A \x7b x: u8 \x7d\n#[derive(Clone)]\nstruct B \x7b y: u8 \x7d").data) := by
  refine ⟨by decide, by decide, by decide⟩

/-- C7 (amended): the splitter finds non-overlapping matches in text
order, and each match is matched lazily: it ends at the first closing
brace after its opening brace, the body between them holding no closing
brace. -/
theorem claimC7_theorem (t : List Char) :
    Seg t (structMatches t) ∧
      ∀ m ∈ structMatches t,
        ∃ a bd, m = a ++ '\x7b' :: (bd ++ ['\x7d']) ∧ '\x7d' ∉ bd :=
  ⟨structMatches_seg t, fun _ hm => structMatches_shape hm⟩

/-- C7 witness at the two-definition snippet and its first match. -/
theorem claimC7_witness :
    Seg (("#[derive(Debug)]\nstruct A \x7b x: u8 \x7d\n#[derive(Clone)]\nstruct B \x7b y: u8 \x7d").data)
        (structMatches
          (("#[derive(Debug)]\nstruct A \x7b x: u8 \x7d\n#[derive(Clone)]\nstruct B \x7b y: u8 \x7d").data)) ∧
      ∃ a bd, ("#[derive(Debug)]\nstruct A \x7b x: u8 \x7d").data =
          a ++ '\x7b' :: (bd ++ ['\x7d']) ∧ '\x7d' ∉ bd :=
  ⟨(claimC7_theorem
      (("#[derive(Debug)]\nstruct A \x7b x: u8 \x7d\n#[derive(Clone)]\nstruct B \x7b y: u8 \x7d").data)).1,
    (claimC7_theorem
      (("#[derive(Debug)]\nstruct A \x7b x: u8 \x7d\n#[derive(Clone)]\nstruct B \x7b y: u8 \x7d").data)).2
      (("#[derive(Debug)]\nstruct A \x7b x: u8 \x7d").data) (by decide)⟩

/-- C8: a document ending in an opened-but-never-closed fenced block
produces exactly the output of the document without the dangling block:
the dangling content yields no file and no count increment, and the run
completes normally; the embedding is total so no crash is possible. -/
theorem claimC8 (name : List Char) (preLines rest : List (List Char))
    (fenceLine : List Char)
    (hopen : fenceOpenChars.isPrefixOf (pyStrip fenceLine) = true)
    (hnoclose : ∀ l ∈ rest, pyStrip l ≠ fenceCloseChars) :
    runExtractLines (preLines ++ fenceLine :: rest) name =
      runExtractLines preLines name := by
  have hscan : scanLines (preLines ++ fenceLine :: rest) = scanLines preLines := by
    rw [scanLines, scanLines, List.foldl_append, List.foldl_cons]
    have h1 : scanStep (preLines.foldl scanStep initState) fenceLine =
        ⟨(preLines.foldl scanStep initState).snippets, true, []⟩ := by
      rw [scanStep, if_pos hopen]
    rw [h1, scanFold_no_close rest _ hnoclose]
  rw [runExtractLines, runExtractLines, hscan]

/-- C8 witness at an empty document followed by a dangling block. -/
theorem claimC8_witness :
    runExtractLines ([] ++ ("```rust").data :: [("let x = 1;").data]) (("n").data) =
      runExtractLines [] (("n").data) :=
  claimC8 (("n").data) [] [("let x = 1;").data] (("```rust").data)
    (by decide) (by decide)

/-- C9: the exit code is zero exactly when the argument count is right and
the oracle reports success; otherwise it is one with a nonempty error
stream; and on success the standard output holds exactly the one-line
summary with the snippet count and the input path. -/
theorem claimC9 (argv : List (List Char))
    (readResult : Except (List Char) (List Char)) :
    ((mainEntry argv readResult).exitCode = 0 ∨
        (mainEntry argv readResult).exitCode = 1) ∧
      ((mainEntry argv readResult).exitCode = 0 ↔
        argv.length = 4 ∧ ∃ content, readResult = Except.ok content) ∧
      ((mainEntry argv readResult).exitCode = 1 →
        (mainEntry argv readResult).stderrLines ≠ []) ∧
      (∀ content, argv.length = 4 → readResult = Except.ok content →
        (mainEntry argv readResult).stdoutLines =
            [summaryChars (runExtract content (argv.getD 3 [])).snippetCount
              (argv.getD 1 [])] ∧
          (mainEntry argv readResult).stderrLines = []) := by
  by_cases ha : argv.length = 4
  · cases readResult with
    | ok content => simp [mainEntry, ha, extract_rust_snippets]
    | error msg => simp [mainEntry, ha, extract_rust_snippets, errorChars]
  · simp [mainEntry, ha, usageChars]

/-- C9 witness at a correct invocation over empty input. -/
theorem claimC9_witness :
    (mainEntry [("p").data, ("f").data, ("d").data, ("n").data]
        (Except.ok [])).exitCode = 0 ∧
      (mainEntry [("p").data, ("f").data, ("d").data, ("n").data]
          (Except.ok [])).stdoutLines =
        [summaryChars (runExtract [] (("n").data)).snippetCount (("f").data)] :=
  ⟨(claimC9 [("p").data, ("f").data, ("d").data, ("n").data] (Except.ok [])).2.1.mpr
      ⟨rfl, [], rfl⟩,
    ((claimC9 [("p").data, ("f").data, ("d").data, ("n").data] (Except.ok [])).2.2.2
      [] rfl rfl).1⟩

/-- C10: a snippet whose stripped text begins with a stub-marker line, a
comment reading Your code here or a bare ellipsis, is discarded whole,
whatever substantial code follows on later lines. -/
theorem claimC10 (code rest : List Char)
    (h : pyStrip code = ("// Your code here").data ++ '\n' :: rest ∨
         pyStrip code = ("...").data ++ '\n' :: rest) :
    is_placeholder_snippet code = true := by
  have hany : (placeholderPatterns.any fun p =>
      (reMatch p (pyStrip code)).isSome) = true := by
    rcases h with h | h
    · rw [h]
      have hd : ("// Your code here").data ++ '\n' :: rest =
          '/' :: '/' :: ' ' :: 'Y' :: 'o' :: 'u' :: 'r' :: ' ' :: 'c' :: 'o' :: 'd' ::
            'e' :: ' ' :: 'h' :: 'e' :: 'r' :: 'e' :: '\n' :: rest := rfl
      rw [hd]
      simp [placeholderPatterns, reMatch, pat1, pat2, pat3, pat4, rcats, mtch_cat,
        mtch_star, mtch_ch_cons, mtch_eps, mtch_eol_cons, starG_cons, starG_nil,
        isSome_orElse, isPySpace, cichr, lchr, wsStar]
    · rw [h]
      have hd : ("...").data ++ '\n' :: rest = '.' :: '.' :: '.' :: '\n' :: rest := rfl
      rw [hd]
      simp [placeholderPatterns, reMatch, pat1, pat2, pat3, pat4, rcats, mtch_cat,
        mtch_star, mtch_ch_cons, mtch_eps, mtch_eol_cons, starG_cons, starG_nil,
        isSome_orElse, isPySpace, cichr, lchr, wsStar]
  show (if (placeholderPatterns.any fun p => (reMatch p (pyStrip code)).isSome) = true
      then true
      else if (pyStrip code).length < 10 then true else false) = true
  rw [hany, if_pos rfl]

/-- C10 witness at a stub first line followed by real code. -/
theorem claimC10_witness :
    is_placeholder_snippet (("// Your code here\nfn main() \x7b\x7d more").data) = true :=
  claimC10 (("// Your code here\nfn main() \x7b\x7d more").data)
    (("fn main() \x7b\x7d more").data) (Or.inl (by decide))

end Tnuctipun
